import Mathlib

set_option maxHeartbeats 1000000

/-!
Verification of the Tilt-based development-cluster orchestration described by
the specification of this repository.

The repository's own source is the declarative `Tiltfile` (build targets and
`k8s_resource` declarations) plus a UI bootstrap.  The orchestration engine
that consumes those declarations (dependency graph, topological batches,
build cache, resource scheduler, port/tunnel manager) is external to the
repository, so the engine itself is modelled here from the specification,
while the declarations are embedded from the `Tiltfile` source verbatim.
-/

/-! ## Tiltfile declarations (embedded from source) -/

/-- A `docker_build(...)` declaration of the Tiltfile: image name, build
context, dockerfile (the build instructions reference) and the optional
`entrypoint` override. -/
structure DockerBuildDecl where
  name : String
  context : String
  dockerfile : String
  entrypoint : Option (List String)
deriving DecidableEq, Repr

/-- The `dlv` debug-proxy command declared as the `entrypoint` of the
`chroma-coordinator` build in the Tiltfile. -/
def dlvCommand : List String :=
  ["/dlv", "--listen=:40000", "--api-version=2", "--headless=true", "exec",
   "/chroma-coordinator/bin/chroma", "coordinator", "--",
   "--pulsar-admin-url=http://pulsar.chroma:8080",
   "--pulsar-url=pulsar://pulsar.chroma:6650", "--notifier-provider=pulsar"]

/-- `docker_build('chroma-coordinator', ...)` from the Tiltfile. -/
def chromaCoordinatorBuild : DockerBuildDecl :=
  { name := "chroma-coordinator", context := ".",
    dockerfile := "./go/coordinator/Dockerfile", entrypoint := some dlvCommand }

/-- `docker_build('server', ...)` from the Tiltfile (no entrypoint override). -/
def serverBuild : DockerBuildDecl :=
  { name := "server", context := ".", dockerfile := "./Dockerfile",
    entrypoint := none }

/-- `docker_build('worker', ...)` from the Tiltfile (no entrypoint override). -/
def workerBuild : DockerBuildDecl :=
  { name := "worker", context := ".", dockerfile := "./rust/worker/Dockerfile",
    entrypoint := none }

/-- The three `docker_build` declarations of the Tiltfile, in source order. -/
def tiltfileBuilds : List DockerBuildDecl :=
  [chromaCoordinatorBuild, serverBuild, workerBuild]

/-- A `k8s_resource(...)` declaration of the Tiltfile: resource name,
`resource_deps`, `labels` and `port_forwards` (local, remote). -/
structure K8sResourceDecl where
  name : String
  resource_deps : List String
  labels : List String
  port_forwards : List (Nat × Nat)
deriving DecidableEq, Repr

/-- The five `k8s_resource` declarations of the Tiltfile, in source order.
`port_forwards=8000` forwards local port 8000 to the same container port;
`'40000:40000'` is an explicit local:remote pair. -/
def tiltfileResources : List K8sResourceDecl :=
  [ { name := "k8s_setup", resource_deps := [], labels := ["infrastructure"],
      port_forwards := [] },
    { name := "pulsar", resource_deps := ["k8s_setup"],
      labels := ["infrastructure"], port_forwards := [] },
    { name := "server", resource_deps := ["k8s_setup"], labels := ["chroma"],
      port_forwards := [(8000, 8000)] },
    { name := "coordinator", resource_deps := ["pulsar", "k8s_setup", "server"],
      labels := ["chroma"], port_forwards := [(40000, 40000)] },
    { name := "worker", resource_deps := ["coordinator", "k8s_setup"],
      labels := ["chroma"], port_forwards := [] } ]

/-! ## Dependency graph and reachability

Modelled from the spec: the Dependency Graph component (§4.2) is not part of
the repository source (it lives in the external Tilt engine), so it is
modelled here from the specification's words.  An edge `(a, b)` means
"`a` depends on `b`" (`a` waits for `b`). -/

/-- A dependency graph: the declared resource nodes together with the edge
relation "first component depends on second component". -/
structure Graph where
  nodes : List String
  edges : List (String × String)
deriving DecidableEq, Repr

/-- The dependency graph declared by the Tiltfile, derived from the
`k8s_resource` declarations. -/
def chromaGraph : Graph :=
  { nodes := tiltfileResources.map (fun r => r.name),
    edges := tiltfileResources.flatMap
      (fun r => r.resource_deps.map (fun d => (r.name, d))) }

/-- Successors of `a` in the edge list: everything `a` directly depends on. -/
def succs (E : List (String × String)) (a : String) : List String :=
  (E.filter (fun e => decide (e.1 = a))).map (fun e => e.2)

/-- Direct dependencies of node `n` in graph `g`. -/
def depsOf (g : Graph) (n : String) : List String := succs g.edges n

/-- All vertices mentioned by the edge list. -/
def vertexList (E : List (String × String)) : List String :=
  E.map (fun e => e.1) ++ E.map (fun e => e.2)

/-- One round of successor expansion of a vertex set. -/
def expandOnce (E : List (String × String)) (s : List String) : List String :=
  (s ++ s.flatMap (succs E)).dedup

/-- Whether a vertex set is closed under successors. -/
def stableB (E : List (String × String)) (s : List String) : Bool :=
  (s.flatMap (succs E)).all (fun x => decide (x ∈ s))

/-- Modelled from the spec: the incremental reachability search of
`addEdge` (§4.2), realised as fuelled iteration of successor expansion up
to closure. -/
def reachAux (E : List (String × String)) : Nat → List String → List String
  | 0, s => s
  | k+1, s => if stableB E s then s else reachAux E k (expandOnce E s)

/-- All vertices reachable from `a` along edges of `E`. -/
def reachableFrom (E : List (String × String)) (a : String) : List String :=
  reachAux E ((vertexList E).length + 1) [a]

/-- Decidable reachability check: does some edge path lead from `a` to `b`? -/
def reaches (E : List (String × String)) (a b : String) : Bool :=
  decide (b ∈ reachableFrom E a)

/-- The single-edge relation of an edge list. -/
def Edge (E : List (String × String)) (x y : String) : Prop := (x, y) ∈ E

/-- Relational reachability: the reflexive-transitive closure of `Edge`. -/
def Reaches (E : List (String × String)) (x y : String) : Prop :=
  Relation.ReflTransGen (Edge E) x y

/-- An edge list is acyclic when no declared edge closes a cycle. -/
def Acyclic (E : List (String × String)) : Prop :=
  ∀ e ∈ E, ¬ Reaches E e.2 e.1

/-- A graph is well formed when every edge endpoint is a declared node. -/
def WF (g : Graph) : Prop :=
  ∀ e ∈ g.edges, e.1 ∈ g.nodes ∧ e.2 ∈ g.nodes

theorem mem_succs {E : List (String × String)} {a x : String} :
    x ∈ succs E a ↔ Edge E a x := by
  constructor
  · intro hx
    simp only [succs, List.mem_map, List.mem_filter, decide_eq_true_eq] at hx
    obtain ⟨e, ⟨heE, h1⟩, h2⟩ := hx
    have : e = (a, x) := by
      cases e; simp only [Prod.mk.injEq]; exact ⟨h1, h2⟩
    rw [this] at heE; exact heE
  · intro hx
    simp only [succs, List.mem_map, List.mem_filter, decide_eq_true_eq]
    exact ⟨(a, x), ⟨hx, rfl⟩, rfl⟩

theorem succs_subset_vertexList {E : List (String × String)} {a x : String}
    (h : x ∈ succs E a) : x ∈ vertexList E := by
  rw [mem_succs] at h
  simp only [vertexList, List.mem_append, List.mem_map]
  exact Or.inr ⟨(a, x), h, rfl⟩

theorem subset_expandOnce {E : List (String × String)} {s : List String}
    {x : String} (h : x ∈ s) : x ∈ expandOnce E s := by
  simp only [expandOnce, List.mem_dedup, List.mem_append]
  exact Or.inl h

theorem mem_expandOnce {E : List (String × String)} {s : List String}
    {x : String} :
    x ∈ expandOnce E s ↔ x ∈ s ∨ ∃ y ∈ s, x ∈ succs E y := by
  simp only [expandOnce, List.mem_dedup, List.mem_append, List.mem_flatMap]

theorem stableB_iff {E : List (String × String)} {s : List String} :
    stableB E s = true ↔ ∀ y ∈ s, ∀ x ∈ succs E y, x ∈ s := by
  simp only [stableB, List.all_eq_true, List.mem_flatMap, decide_eq_true_eq]
  constructor
  · intro h y hy x hx
    exact h x ⟨y, hy, hx⟩
  · intro h x ⟨y, hy, hx⟩
    exact h y hy x hx

theorem subset_reachAux {E : List (String × String)} :
    ∀ (k : Nat) (s : List String) (x : String), x ∈ s → x ∈ reachAux E k s := by
  intro k
  induction k with
  | zero => intro s x hx; exact hx
  | succ k ih =>
    intro s x hx
    simp only [reachAux]
    by_cases hst : stableB E s
    · rw [if_pos hst]; exact hx
    · rw [if_neg hst]; exact ih (expandOnce E s) x (subset_expandOnce hx)

theorem reachAux_sound {E : List (String × String)} {a : String} :
    ∀ (k : Nat) (s : List String), (∀ x ∈ s, Reaches E a x) →
      ∀ y ∈ reachAux E k s, Reaches E a y := by
  intro k
  induction k with
  | zero => intro s hs y hy; exact hs y hy
  | succ k ih =>
    intro s hs y hy
    simp only [reachAux] at hy
    by_cases hst : stableB E s
    · rw [if_pos hst] at hy; exact hs y hy
    · rw [if_neg hst] at hy
      refine ih (expandOnce E s) ?_ y hy
      intro x hx
      rcases mem_expandOnce.mp hx with hx | ⟨z, hz, hzx⟩
      · exact hs x hx
      · exact (hs z hz).tail (mem_succs.mp hzx)

theorem reachAux_closed (E : List (String × String)) :
    ∀ (k : Nat) (s : List String) (U : Finset String),
      (∀ x ∈ s, x ∈ U) → (∀ x ∈ vertexList E, x ∈ U) →
      U.card ≤ k + s.toFinset.card →
      ∀ y ∈ reachAux E k s, ∀ x ∈ succs E y, x ∈ reachAux E k s := by
  intro k
  induction k with
  | zero =>
    intro s U hsU hvU hcard y hy x hx
    have hsub : s.toFinset ⊆ U := by
      intro a ha; exact hsU a (List.mem_toFinset.mp ha)
    have heq : s.toFinset = U :=
      Finset.eq_of_subset_of_card_le hsub (by omega)
    have hxU : x ∈ U := hvU x (succs_subset_vertexList hx)
    rw [← heq] at hxU
    exact List.mem_toFinset.mp hxU
  | succ k ih =>
    intro s U hsU hvU hcard
    simp only [reachAux]
    by_cases hst : stableB E s
    · rw [if_pos hst]
      exact stableB_iff.mp hst
    · rw [if_neg hst]
      have hwit : ∃ y ∈ s, ∃ x ∈ succs E y, x ∉ s := by
        by_contra hcon
        push_neg at hcon
        exact hst (stableB_iff.mpr hcon)
      obtain ⟨y0, hy0, x0, hx0, hx0s⟩ := hwit
      have hssub : s.toFinset ⊂ (expandOnce E s).toFinset := by
        constructor
        · intro a ha
          exact List.mem_toFinset.mpr
            (subset_expandOnce (List.mem_toFinset.mp ha))
        · intro hsup
          have : x0 ∈ s.toFinset := hsup (List.mem_toFinset.mpr
            (mem_expandOnce.mpr (Or.inr ⟨y0, hy0, hx0⟩)))
          exact hx0s (List.mem_toFinset.mp this)
      have hlt : s.toFinset.card < (expandOnce E s).toFinset.card :=
        Finset.card_lt_card hssub
      refine ih (expandOnce E s) U ?_ hvU (by omega)
      intro a ha
      rcases mem_expandOnce.mp ha with ha | ⟨z, _, hza⟩
      · exact hsU a ha
      · exact hvU a (succs_subset_vertexList hza)

theorem reaches_eq_true_iff {E : List (String × String)} {a b : String} :
    reaches E a b = true ↔ b ∈ reachableFrom E a := by
  simp [reaches]

theorem reaches_refl (E : List (String × String)) (a : String) :
    reaches E a a = true :=
  reaches_eq_true_iff.mpr
    (subset_reachAux ((vertexList E).length + 1) [a] a (by simp))

theorem reaches_sound {E : List (String × String)} {a b : String}
    (h : reaches E a b = true) : Reaches E a b := by
  refine reachAux_sound ((vertexList E).length + 1) [a] ?_ b
    (reaches_eq_true_iff.mp h)
  intro x hx
  have : x = a := by simpa using hx
  rw [this]
  exact Relation.ReflTransGen.refl

theorem reaches_complete {E : List (String × String)} {a b : String}
    (h : Reaches E a b) : reaches E a b = true := by
  have ha : a ∈ reachableFrom E a :=
    subset_reachAux ((vertexList E).length + 1) [a] a (by simp)
  have key : ∀ y ∈ reachableFrom E a, ∀ x ∈ succs E y, x ∈ reachableFrom E a := by
    refine reachAux_closed E ((vertexList E).length + 1) [a]
      (insert a (vertexList E).toFinset) ?_ ?_ ?_
    · intro x hx
      have : x = a := by simpa using hx
      rw [this]; exact Finset.mem_insert_self a _
    · intro x hx
      exact Finset.mem_insert_of_mem (List.mem_toFinset.mpr hx)
    · have h1 : (insert a (vertexList E).toFinset).card ≤
          (vertexList E).toFinset.card + 1 := Finset.card_insert_le a _
      have h2 : (vertexList E).toFinset.card ≤ (vertexList E).length :=
        List.toFinset_card_le (vertexList E)
      have h3 : 1 ≤ ([a] : List String).toFinset.card := by simp
      omega
  rw [reaches_eq_true_iff]
  induction h with
  | refl => exact ha
  | tail hrest hedge ih => exact key _ ih _ (mem_succs.mpr hedge)

theorem reaches_iff {E : List (String × String)} {a b : String} :
    reaches E a b = true ↔ Reaches E a b :=
  ⟨reaches_sound, reaches_complete⟩

theorem acyclic_of_check {E : List (String × String)}
    (h : (E.all fun e => !reaches E e.2 e.1) = true) : Acyclic E := by
  intro e he hR
  have := List.all_eq_true.mp h e he
  rw [Bool.not_eq_true', ← Bool.not_eq_true] at this
  exact this (reaches_complete hR)

theorem reaches_cons_src {E : List (String × String)} {u v x y : String}
    (h : Reaches ((u, v) :: E) x y) : Reaches E x y ∨ Reaches E x u := by
  induction h using Relation.ReflTransGen.head_induction_on with
  | refl => exact Or.inl Relation.ReflTransGen.refl
  | head hedge hrest ih =>
    rcases List.mem_cons.mp hedge with heq | hE
    · rcases Prod.mk.injEq .. ▸ heq with ⟨h1, h2⟩
      rw [h1]
      exact Or.inr Relation.ReflTransGen.refl
    · rcases ih with h1 | h1
      · exact Or.inl (Relation.ReflTransGen.head hE h1)
      · exact Or.inr (Relation.ReflTransGen.head hE h1)

theorem reaches_cons_tgt {E : List (String × String)} {u v x y : String}
    (h : Reaches ((u, v) :: E) x y) : Reaches E x y ∨ Reaches E v y := by
  induction h with
  | refl => exact Or.inl Relation.ReflTransGen.refl
  | tail hrest hedge ih =>
    rcases List.mem_cons.mp hedge with heq | hE
    · rcases Prod.mk.injEq .. ▸ heq with ⟨h1, h2⟩
      rw [h2]
      exact Or.inr Relation.ReflTransGen.refl
    · rcases ih with h1 | h1
      · exact Or.inl (h1.tail hE)
      · exact Or.inr (h1.tail hE)

/-! ## Edge insertion with incremental cycle detection (§4.2) -/

/-- Fatal load-time configuration error raised by the loader or graph. -/
inductive ConfigError
  | cycle (fr tgt : String)
deriving DecidableEq, Repr

/-- Modelled from the spec: `addEdge(from, to)` registers "from depends on
to" and rejects with `ConfigError` when the reachability search from `to`
reaches `from` (which is exactly when the new edge would close a cycle). -/
def addEdge (g : Graph) (fr tgt : String) : Except ConfigError Graph :=
  if reaches g.edges tgt fr then Except.error (ConfigError.cycle fr tgt)
  else Except.ok { nodes := g.nodes, edges := (fr, tgt) :: g.edges }

/-- C2: `addEdge(from, to)` rejects with `ConfigError` exactly when the
reachability search from `to` reaches `from` (so a cyclic declaration such
as A → B, B → A fails at load time), and after every successful `addEdge`
the graph is still acyclic. -/
theorem addEdge_rejects_iff_and_preserves_acyclic :
    ∀ (g : Graph) (fr tgt : String),
      ((∃ c, addEdge g fr tgt = Except.error c) ↔ Reaches g.edges tgt fr) ∧
      (∀ g', Acyclic g.edges → addEdge g fr tgt = Except.ok g' →
        Acyclic g'.edges) := by
  intro g fr tgt
  constructor
  · constructor
    · intro ⟨c, hc⟩
      by_cases hr : reaches g.edges tgt fr
      · exact reaches_sound hr
      · rw [addEdge, if_neg hr] at hc
        exact absurd hc (by simp)
    · intro hR
      refine ⟨ConfigError.cycle fr tgt, ?_⟩
      rw [addEdge, if_pos (reaches_complete hR)]
  · intro g' hA hok
    by_cases hr : reaches g.edges tgt fr
    · rw [addEdge, if_pos hr] at hok
      exact absurd hok (by simp)
    · rw [addEdge, if_neg hr] at hok
      have hnR : ¬ Reaches g.edges tgt fr := fun hc => hr (reaches_complete hc)
      have hg' : g'.edges = (fr, tgt) :: g.edges := by
        injection hok with h
        rw [← h]
      rw [hg']
      intro e he hR
      rcases List.mem_cons.mp he with heq | hE
      · rw [heq] at hR
        rcases reaches_cons_src hR with h1 | h1 <;> exact hnR h1
      · rcases reaches_cons_tgt hR with h1 | h1
        · exact hA e hE h1
        · rcases reaches_cons_src hR with h2 | h2
          · exact hA e hE h2
          · have hedge : Edge g.edges e.1 e.2 := by
              rw [Edge, Prod.mk.eta]; exact hE
            exact hnR ((h1.tail hedge).trans h2)

/-- Two-node graph with the single declared edge "A depends on B". -/
def graphAB : Graph := { nodes := ["A", "B"], edges := [("A", "B")] }

/-- Two-node graph with no declared edges yet. -/
def graphAB0 : Graph := { nodes := ["A", "B"], edges := [] }

/-- C2 witness: declaring "A depends on B" succeeds from the empty edge set
and leaves an acyclic graph; then declaring "B depends on A" (the cyclic
pair of the spec's example) is rejected with a `ConfigError`. -/
theorem addEdge_rejects_iff_and_preserves_acyclic_witness :
    Acyclic graphAB.edges ∧
    addEdge graphAB "B" "A" = Except.error (ConfigError.cycle "B" "A") := by
  constructor
  · exact (addEdge_rejects_iff_and_preserves_acyclic graphAB0 "A" "B").2 graphAB
      (fun e he => absurd he (List.not_mem_nil e)) (by rfl)
  · obtain ⟨c, hc⟩ :=
      (addEdge_rejects_iff_and_preserves_acyclic graphAB "B" "A").1.mpr
        (Relation.ReflTransGen.single
          (show ("A", "B") ∈ graphAB.edges by decide))
    rw [hc]
    cases hc.symm.trans (by rfl :
      addEdge graphAB "B" "A" = Except.error (ConfigError.cycle "B" "A"))
    rfl

/-! ## Topological batches (§4.2) -/

/-- The next batch: every node not yet emitted whose dependencies have all
been emitted in earlier batches (`done`). -/
def readyBatch (g : Graph) (done : List String) : List String :=
  g.nodes.filter
    (fun n => decide (n ∉ done) && (depsOf g n).all (fun d => decide (d ∈ done)))

/-- Modelled from the spec: `topologicalBatches()` (§4.2) produces the
sequence of batches by repeatedly emitting every node whose dependencies
are all in strictly earlier batches, keeping the stable insertion order of
the node list. -/
def batchesAux (g : Graph) : Nat → List String → List (List String)
  | 0, _ => []
  | k+1, done =>
    if (readyBatch g done).isEmpty then []
    else readyBatch g done :: batchesAux g k (done ++ readyBatch g done)

/-- The topological batch sequence of a graph. -/
def topologicalBatches (g : Graph) : List (List String) :=
  batchesAux g g.nodes.length []

theorem mem_readyBatch {g : Graph} {done : List String} {n : String} :
    n ∈ readyBatch g done ↔
      n ∈ g.nodes ∧ n ∉ done ∧ ∀ d ∈ depsOf g n, d ∈ done := by
  simp only [readyBatch, List.mem_filter, Bool.and_eq_true, decide_eq_true_eq,
    List.all_eq_true, and_assoc]

theorem batchesAux_ordering (g : Graph) :
    ∀ (k : Nat) (done : List String) (i : Nat) (b : List String) (n : String),
      (batchesAux g k done)[i]? = some b → n ∈ b → ∀ d ∈ depsOf g n,
      d ∈ done ∨ ∃ (j : Nat) (b' : List String),
        j < i ∧ (batchesAux g k done)[j]? = some b' ∧ d ∈ b' := by
  intro k
  induction k with
  | zero =>
    intro done i b n hb
    simp [batchesAux] at hb
  | succ k ih =>
    intro done i b n hb hn d hd
    by_cases he : (readyBatch g done).isEmpty
    · rw [batchesAux, if_pos he] at hb
      simp at hb
    · rw [batchesAux, if_neg he] at hb
      cases i with
      | zero =>
        rw [List.getElem?_cons_zero] at hb
        injection hb with hb
        rw [← hb] at hn
        exact Or.inl ((mem_readyBatch.mp hn).2.2 d hd)
      | succ i =>
        rw [List.getElem?_cons_succ] at hb
        rcases ih (done ++ readyBatch g done) i b n hb hn d hd with hdone | hlater
        · rcases List.mem_append.mp hdone with h1 | h1
          · exact Or.inl h1
          · refine Or.inr ⟨0, readyBatch g done, Nat.succ_pos i, ?_, h1⟩
            rw [batchesAux, if_neg he, List.getElem?_cons_zero]
        · obtain ⟨j, b', hj, hjb, hdb⟩ := hlater
          refine Or.inr ⟨j + 1, b', by omega, ?_, hdb⟩
          rw [batchesAux, if_neg he, List.getElem?_cons_succ]
          exact hjb

theorem exists_depFree {E : List (String × String)} (hA : Acyclic E) :
    ∀ (m : Nat) (rem : List String), rem.length ≤ m → rem ≠ [] →
      ∃ n ∈ rem, ∀ d ∈ succs E n, d ∉ rem := by
  intro m
  induction m with
  | zero =>
    intro rem hlen hne
    cases rem with
    | nil => exact absurd rfl hne
    | cons a l => simp at hlen
  | succ m ih =>
    intro rem hlen hne
    cases hrem : rem with
    | nil => exact absurd hrem hne
    | cons n0 l =>
    rw [← hrem]
    have hn0 : n0 ∈ rem := by rw [hrem]; exact List.mem_cons_self n0 l
    by_cases hc : ∀ d ∈ succs E n0, d ∉ rem
    · exact ⟨n0, hn0, hc⟩
    · push_neg at hc
      obtain ⟨d, hd, hdrem⟩ := hc
      have hedge : Edge E n0 d := mem_succs.mp hd
      have hdd : reaches E d d = true := reaches_refl E d
      have hsub : List.Sublist (rem.filter (fun x => reaches E d x)) rem :=
        List.filter_sublist rem
      have hd' : d ∈ rem.filter (fun x => reaches E d x) :=
        List.mem_filter.mpr ⟨hdrem, hdd⟩
      have hn0' : n0 ∉ rem.filter (fun x => reaches E d x) := by
        intro hmem
        have hr := (List.mem_filter.mp hmem).2
        exact hA (n0, d) hedge (reaches_sound hr)
      have hlt : (rem.filter (fun x => reaches E d x)).length ≤ m := by
        have hle := hsub.length_le
        have hne' : (rem.filter (fun x => reaches E d x)).length ≠ rem.length := by
          intro hl
          have := hsub.eq_of_length hl
          rw [this] at hn0'
          exact hn0' hn0
        omega
      obtain ⟨nm, hnm, hprop⟩ := ih (rem.filter (fun x => reaches E d x)) hlt
        (List.ne_nil_of_mem hd')
      refine ⟨nm, (List.mem_filter.mp hnm).1, ?_⟩
      intro x hx hxrem
      refine hprop x hx (List.mem_filter.mpr ⟨hxrem, ?_⟩)
      have hdnm : Reaches E d nm := reaches_sound (List.mem_filter.mp hnm).2
      exact reaches_complete (hdnm.tail (mem_succs.mp hx))

theorem batchesAux_cover {g : Graph} (hA : Acyclic g.edges) (hW : WF g) :
    ∀ (k : Nat) (done : List String),
      (g.nodes.filter (fun n => decide (n ∉ done))).length ≤ k →
      ∀ n ∈ g.nodes, n ∈ done ∨
        ∃ (i : Nat) (b : List String),
          (batchesAux g k done)[i]? = some b ∧ n ∈ b := by
  intro k
  induction k with
  | zero =>
    intro done hlen n hn
    left
    by_contra hnd
    have : n ∈ g.nodes.filter (fun n => decide (n ∉ done)) :=
      List.mem_filter.mpr ⟨hn, by simpa using hnd⟩
    rw [List.length_eq_zero.mp (Nat.le_zero.mp hlen)] at this
    exact absurd this (List.not_mem_nil n)
  | succ k ih =>
    intro done hlen n hn
    by_cases hrem : g.nodes.filter (fun n => decide (n ∉ done)) = []
    · left
      by_contra hnd
      have : n ∈ g.nodes.filter (fun n => decide (n ∉ done)) :=
        List.mem_filter.mpr ⟨hn, by simpa using hnd⟩
      rw [hrem] at this
      exact absurd this (List.not_mem_nil n)
    · obtain ⟨ns, hns, hnsdep⟩ :=
        exists_depFree hA (g.nodes.filter (fun n => decide (n ∉ done))).length
          (g.nodes.filter (fun n => decide (n ∉ done))) le_rfl hrem
      have hnsb : ns ∈ readyBatch g done := by
        have h1 := List.mem_filter.mp hns
        refine mem_readyBatch.mpr ⟨h1.1, by simpa using h1.2, ?_⟩
        intro d hd
        have hdn : d ∈ g.nodes := (hW (ns, d) (mem_succs.mp hd)).2
        have hdnrem : d ∉ g.nodes.filter (fun n => decide (n ∉ done)) :=
          hnsdep d hd
        by_contra hddone
        exact hdnrem (List.mem_filter.mpr ⟨hdn, by simpa using hddone⟩)
      have hne : ¬ (readyBatch g done).isEmpty := by
        rw [List.isEmpty_iff]
        exact List.ne_nil_of_mem hnsb
      by_cases hnd : n ∈ done
      · exact Or.inl hnd
      by_cases hnb : n ∈ readyBatch g done
      · refine Or.inr ⟨0, readyBatch g done, ?_, hnb⟩
        rw [batchesAux, if_neg hne, List.getElem?_cons_zero]
      · have hmono : List.Sublist
            (g.nodes.filter (fun x => decide (x ∉ done ++ readyBatch g done)))
            (g.nodes.filter (fun x => decide (x ∉ done))) := by
          refine List.monotone_filter_right g.nodes ?_
          intro a ha
          simp only [decide_eq_true_eq, List.mem_append] at ha ⊢
          intro hcon
          exact ha (Or.inl hcon)
        have hstrict : (g.nodes.filter
            (fun x => decide (x ∉ done ++ readyBatch g done))).length ≤ k := by
          have hle := hmono.length_le
          have hnsout : ns ∉ g.nodes.filter
              (fun x => decide (x ∉ done ++ readyBatch g done)) := by
            intro hmem
            have := (List.mem_filter.mp hmem).2
            simp only [decide_eq_true_eq, List.mem_append] at this
            exact this (Or.inr hnsb)
          have hne' : (g.nodes.filter
              (fun x => decide (x ∉ done ++ readyBatch g done))).length ≠
              (g.nodes.filter (fun x => decide (x ∉ done))).length := by
            intro hl
            have := hmono.eq_of_length hl
            rw [this] at hnsout
            exact hnsout hns
          omega
        rcases ih (done ++ readyBatch g done) hstrict n hn with hdone | hlater
        · rcases List.mem_append.mp hdone with h1 | h1
          · exact absurd h1 hnd
          · exact absurd h1 hnb
        · obtain ⟨i, b, hib, hnb'⟩ := hlater
          refine Or.inr ⟨i + 1, b, ?_, hnb'⟩
          rw [batchesAux, if_neg hne, List.getElem?_cons_succ]
          exact hib

/-- C1: every dependency of a node placed in some topological batch lies in
a strictly earlier batch; for an acyclic well-formed declaration every node
is placed in some batch; and the batch sequence is a function of the node
list and edge set alone (deterministic). -/
theorem topologicalBatches_ordering_cover_det :
    ∀ g : Graph,
      (∀ (i : Nat) (b : List String) (n : String),
        (topologicalBatches g)[i]? = some b → n ∈ b → ∀ d ∈ depsOf g n,
        ∃ (j : Nat) (b' : List String),
          j < i ∧ (topologicalBatches g)[j]? = some b' ∧ d ∈ b') ∧
      (Acyclic g.edges → WF g → ∀ n ∈ g.nodes,
        ∃ (i : Nat) (b : List String),
          (topologicalBatches g)[i]? = some b ∧ n ∈ b) ∧
      (∀ g₂ : Graph, g.nodes = g₂.nodes → g.edges = g₂.edges →
        topologicalBatches g = topologicalBatches g₂) := by
  intro g
  refine ⟨?_, ?_, ?_⟩
  · intro i b n hb hn d hd
    rcases batchesAux_ordering g g.nodes.length [] i b n hb hn d hd with h | h
    · exact absurd h (List.not_mem_nil d)
    · exact h
  · intro hA hW n hn
    have hfl : (g.nodes.filter
        (fun x => decide (x ∉ ([] : List String)))).length ≤ g.nodes.length :=
      List.length_filter_le _ _
    rcases batchesAux_cover hA hW g.nodes.length [] hfl n hn with h | h
    · exact absurd h (List.not_mem_nil n)
    · exact h
  · intro g₂ hN hE
    cases g; cases g₂
    simp only at hN hE
    rw [hN, hE]

/-- The Tiltfile dependency graph is acyclic. -/
theorem chromaGraph_acyclic : Acyclic chromaGraph.edges :=
  acyclic_of_check (by decide)

/-- The Tiltfile dependency graph is well formed: every dependency named in
`resource_deps` is itself a declared resource. -/
theorem chromaGraph_wf : WF chromaGraph :=
  show ∀ e ∈ chromaGraph.edges,
      e.1 ∈ chromaGraph.nodes ∧ e.2 ∈ chromaGraph.nodes by decide

theorem mem_of_getElemOpt {α : Type} {l : List α} {i : Nat} {a : α}
    (h : l[i]? = some a) : a ∈ l := by
  rcases List.getElem?_eq_some.mp h with ⟨hlt, rfl⟩
  exact List.getElem_mem hlt

/-- C1 witness: on the Tiltfile graph, "pulsar" (a dependency of the
"coordinator" batch at index 2) is placed by some strictly earlier batch,
and "worker" is covered by some batch of the sequence. -/
theorem topologicalBatches_ordering_cover_det_witness :
    "pulsar" ∈ (topologicalBatches chromaGraph).flatten ∧
    "worker" ∈ (topologicalBatches chromaGraph).flatten := by
  constructor
  · obtain ⟨j, b', hj, hjb, hdb⟩ :=
      (topologicalBatches_ordering_cover_det chromaGraph).1 2 ["coordinator"]
        "coordinator" (by decide) (by decide) "pulsar" (by decide)
    exact List.mem_flatten.mpr ⟨b', mem_of_getElemOpt hjb, hdb⟩
  · obtain ⟨i, b, hib, hnb⟩ :=
      (topologicalBatches_ordering_cover_det chromaGraph).2.1
        chromaGraph_acyclic chromaGraph_wf "worker" (by decide)
    exact List.mem_flatten.mpr ⟨b, mem_of_getElemOpt hib, hnb⟩

/-! ## Resource lifecycle state machine and scheduler (§3, §4.4)

Modelled from the spec: the Resource Scheduler and the per-resource
lifecycle `Pending → Building → Deploying → Ready` with `Error` reachable
from the non-terminal states, reset re-entering `Pending`. -/

/-- Lifecycle state of a resource (§3 ResourceState). -/
inductive RState
  | Pending
  | Building
  | Deploying
  | Ready
  | Error
deriving DecidableEq, Repr

/-- Assignment of a lifecycle state to every resource name. -/
def SchedState := String → RState

/-- The initial scheduler state: every resource is `Pending`. -/
def initState : SchedState := fun _ => RState.Pending

/-- Point update of a scheduler state. -/
def setState (s : SchedState) (n : String) (v : RState) : SchedState :=
  fun m => if m = n then v else s m

theorem setState_same (s : SchedState) (n : String) (v : RState) :
    setState s n v n = v := by
  simp [setState]

theorem setState_other {s : SchedState} {n m : String} {v : RState}
    (h : m ≠ n) : setState s n v m = s m := by
  simp [setState, h]

/-- Modelled from the spec: `dependentsOf(node)` (§4.2), the transitive
closure of nodes that directly or indirectly depend on the node. -/
def dependentsOf (g : Graph) (a : String) : List String :=
  g.nodes.filter (fun n => decide (n ≠ a) && reaches g.edges n a)

theorem mem_dependentsOf {g : Graph} {a n : String} :
    n ∈ dependentsOf g a ↔
      n ∈ g.nodes ∧ n ≠ a ∧ Relation.TransGen (Edge g.edges) n a := by
  simp only [dependentsOf, List.mem_filter, Bool.and_eq_true, decide_eq_true_eq]
  constructor
  · intro ⟨h1, h2, h3⟩
    refine ⟨h1, h2, ?_⟩
    rcases (reaches_sound h3).cases_head with heq | ⟨c, hc, hrest⟩
    · exact absurd heq h2
    · exact Relation.TransGen.head' hc hrest
  · intro ⟨h1, h2, h3⟩
    exact ⟨h1, h2, reaches_complete h3.to_reflTransGen⟩

/-- Modelled from the spec: re-entry reset (§4.4 step 4) — the node and its
full dependent closure are reset to `Pending`; nodes outside the closure
are untouched. -/
def resetNodes (g : Graph) (s : SchedState) (a : String) : SchedState :=
  fun m => if m = a ∨ m ∈ dependentsOf g a then RState.Pending else s m

theorem resetNodes_pos {g : Graph} {s : SchedState} {a n : String}
    (h : n = a ∨ n ∈ dependentsOf g a) :
    resetNodes g s a n = RState.Pending := by
  simp only [resetNodes]
  exact if_pos h

theorem resetNodes_neg {g : Graph} {s : SchedState} {a n : String}
    (h : ¬ (n = a ∨ n ∈ dependentsOf g a)) : resetNodes g s a n = s n := by
  simp only [resetNodes]
  exact if_neg h

/-- Scheduler event labels. -/
inductive SchedEvent
  | startBuild (n : String)
  | buildOk (n : String)
  | buildFail (n : String)
  | deployOk (n : String)
  | deployFail (n : String)
  | reset (n : String)
deriving DecidableEq, Repr

/-- Modelled from the spec: one scheduler transition (§4.4).  A node leaves
`Pending` for `Building` only when every declared dependency is `Ready`;
build/deploy failures and readiness timeouts move it to `Error`; a reset
re-enters `Pending` for the node and its dependent closure. -/
inductive SchedStep (g : Graph) : SchedState → SchedEvent → SchedState → Prop
  | startBuild (s : SchedState) (n : String) (hn : n ∈ g.nodes)
      (hp : s n = RState.Pending)
      (hd : ∀ d ∈ depsOf g n, s d = RState.Ready) :
      SchedStep g s (SchedEvent.startBuild n) (setState s n RState.Building)
  | buildOk (s : SchedState) (n : String) (h : s n = RState.Building) :
      SchedStep g s (SchedEvent.buildOk n) (setState s n RState.Deploying)
  | buildFail (s : SchedState) (n : String) (h : s n = RState.Building) :
      SchedStep g s (SchedEvent.buildFail n) (setState s n RState.Error)
  | deployOk (s : SchedState) (n : String) (h : s n = RState.Deploying) :
      SchedStep g s (SchedEvent.deployOk n) (setState s n RState.Ready)
  | deployFail (s : SchedState) (n : String) (h : s n = RState.Deploying) :
      SchedStep g s (SchedEvent.deployFail n) (setState s n RState.Error)
  | reset (s : SchedState) (n : String) (hn : n ∈ g.nodes) :
      SchedStep g s (SchedEvent.reset n) (resetNodes g s n)

/-- A scheduler state reachable from the all-`Pending` initial state. -/
def SchedReachable (g : Graph) (s : SchedState) : Prop :=
  Relation.ReflTransGen (fun s s' => ∃ e, SchedStep g s e s') initState s

/-- Invariant: every node that has left `Pending` has all direct
dependencies `Ready`. -/
def DepsReadyInv (g : Graph) (s : SchedState) : Prop :=
  ∀ n ∈ g.nodes, s n ≠ RState.Pending → ∀ d ∈ depsOf g n, s d = RState.Ready

theorem dependents_closed {g : Graph} (hW : WF g) {m d a : String}
    (hedge : Edge g.edges m d) (hd : d = a ∨ d ∈ dependentsOf g a)
    (hma : m ≠ a) : m ∈ dependentsOf g a := by
  have hmn : m ∈ g.nodes := (hW (m, d) hedge).1
  rcases hd with rfl | hdep
  · exact mem_dependentsOf.mpr ⟨hmn, hma, Relation.TransGen.single hedge⟩
  · exact mem_dependentsOf.mpr
      ⟨hmn, hma, Relation.TransGen.head hedge (mem_dependentsOf.mp hdep).2.2⟩

theorem inv_setState_progress {g : Graph} {s : SchedState}
    (hInv : DepsReadyInv g s) (nn : String) (v : RState)
    (hsrcP : s nn ≠ RState.Pending)
    (hsrcR : s nn ≠ RState.Ready ∨ v = RState.Ready) :
    DepsReadyInv g (setState s nn v) := by
  intro x hx hxp d hd
  have hready : ∀ d ∈ depsOf g x, s d = RState.Ready := by
    by_cases hxnn : x = nn
    · exact hInv x hx (hxnn ▸ hsrcP)
    · exact hInv x hx (by rwa [setState_other hxnn] at hxp)
  by_cases hdnn : d = nn
  · have hr : s nn = RState.Ready := hdnn ▸ hready d hd
    rcases hsrcR with hc | hc
    · exact absurd hr hc
    · rw [hdnn, setState_same, hc]
  · rw [setState_other hdnn]
    exact hready d hd

theorem step_preserves_inv {g : Graph} {s s' : SchedState} {e : SchedEvent}
    (hW : WF g) (hInv : DepsReadyInv g s) (hstep : SchedStep g s e s') :
    DepsReadyInv g s' := by
  cases hstep with
  | startBuild n hn hp hd =>
    intro x hx hxp dd hdd
    have hready : ∀ dd ∈ depsOf g x, s dd = RState.Ready := by
      by_cases hxn : x = n
      · exact hxn ▸ hd
      · exact hInv x hx (by rwa [setState_other hxn] at hxp)
    have hddn : dd ≠ n := by
      intro hc
      have := hready dd hdd
      rw [hc, hp] at this
      exact absurd this (by decide)
    rw [setState_other hddn]
    exact hready dd hdd
  | buildOk n h =>
    exact inv_setState_progress hInv n RState.Deploying (by rw [h]; decide)
      (Or.inl (by rw [h]; decide))
  | buildFail n h =>
    exact inv_setState_progress hInv n RState.Error (by rw [h]; decide)
      (Or.inl (by rw [h]; decide))
  | deployOk n h =>
    exact inv_setState_progress hInv n RState.Ready (by rw [h]; decide)
      (Or.inr rfl)
  | deployFail n h =>
    exact inv_setState_progress hInv n RState.Error (by rw [h]; decide)
      (Or.inl (by rw [h]; decide))
  | reset n hn =>
    intro x hx hxp dd hdd
    by_cases hcond : x = n ∨ x ∈ dependentsOf g n
    · exact absurd (resetNodes_pos hcond) hxp
    · push_neg at hcond
      have hxold : s x ≠ RState.Pending := by
        rwa [resetNodes_neg (by push_neg; exact hcond)] at hxp
      have hready := hInv x hx hxold dd hdd
      have hdcond : ¬ (dd = n ∨ dd ∈ dependentsOf g n) := by
        intro hc
        exact absurd (dependents_closed hW (mem_succs.mp hdd) hc hcond.1)
          hcond.2
      rw [resetNodes_neg hdcond]
      exact hready

theorem reachable_inv {g : Graph} {s : SchedState} (hW : WF g)
    (h : SchedReachable g s) : DepsReadyInv g s := by
  induction h with
  | refl => intro n hn hp; exact absurd rfl hp
  | tail hrest hstep ih =>
    obtain ⟨e, hstep⟩ := hstep
    exact step_preserves_inv hW ih hstep

theorem error_blocks {g : Graph} {s : SchedState} (hW : WF g)
    (hInv : DepsReadyInv g s) :
    ∀ b a, Relation.TransGen (Edge g.edges) b a → s a ≠ RState.Ready →
      s b = RState.Pending := by
  intro b a h hna
  induction h using Relation.TransGen.head_induction_on with
  | base hedge =>
    by_contra hbp
    have hbn := (hW _ hedge).1
    have := hInv _ hbn hbp _ (mem_succs.mpr hedge)
    exact hna this
  | ih hedge hrest ihp =>
    by_contra hbp
    have hbn := (hW _ hedge).1
    have hc := hInv _ hbn hbp _ (mem_succs.mpr hedge)
    rw [ihp] at hc
    exact absurd hc (by decide)

/-! ## The failure-isolation scenario on the Tiltfile graph -/

/-- Scheduler state after `k8s_setup` starts building. -/
def ds1 : SchedState := setState initState "k8s_setup" RState.Building

/-- Scheduler state after `k8s_setup` finishes building. -/
def ds2 : SchedState := setState ds1 "k8s_setup" RState.Deploying

/-- Scheduler state after `k8s_setup` becomes ready. -/
def ds3 : SchedState := setState ds2 "k8s_setup" RState.Ready

/-- Scheduler state after `pulsar` starts building. -/
def ds4 : SchedState := setState ds3 "pulsar" RState.Building

/-- Scheduler state after `pulsar` finishes building. -/
def ds5 : SchedState := setState ds4 "pulsar" RState.Deploying

/-- Scheduler state after `pulsar` fails readiness. -/
def ds6 : SchedState := setState ds5 "pulsar" RState.Error

/-- Scheduler state after `server` starts building. -/
def ds7 : SchedState := setState ds6 "server" RState.Building

/-- Scheduler state after `server` finishes building. -/
def ds8 : SchedState := setState ds7 "server" RState.Deploying

/-- Scheduler state after `server` becomes ready. -/
def ds9 : SchedState := setState ds8 "server" RState.Ready

/-- A concrete execution on the Tiltfile graph: `k8s_setup` becomes ready,
`pulsar` fails readiness, `server` still becomes ready. -/
theorem demo_reachable : SchedReachable chromaGraph ds9 := by
  have h1 : SchedReachable chromaGraph ds1 :=
    Relation.ReflTransGen.single
      ⟨_, SchedStep.startBuild initState "k8s_setup" (by decide) rfl (by decide)⟩
  have h2 : SchedReachable chromaGraph ds2 :=
    h1.tail ⟨_, SchedStep.buildOk ds1 "k8s_setup" (by decide)⟩
  have h3 : SchedReachable chromaGraph ds3 :=
    h2.tail ⟨_, SchedStep.deployOk ds2 "k8s_setup" (by decide)⟩
  have h4 : SchedReachable chromaGraph ds4 :=
    h3.tail ⟨_, SchedStep.startBuild ds3 "pulsar" (by decide) (by decide)
      (by decide)⟩
  have h5 : SchedReachable chromaGraph ds5 :=
    h4.tail ⟨_, SchedStep.buildOk ds4 "pulsar" (by decide)⟩
  have h6 : SchedReachable chromaGraph ds6 :=
    h5.tail ⟨_, SchedStep.deployFail ds5 "pulsar" (by decide)⟩
  have h7 : SchedReachable chromaGraph ds7 :=
    h6.tail ⟨_, SchedStep.startBuild ds6 "server" (by decide) (by decide)
      (by decide)⟩
  have h8 : SchedReachable chromaGraph ds8 :=
    h7.tail ⟨_, SchedStep.buildOk ds7 "server" (by decide)⟩
  exact h8.tail ⟨_, SchedStep.deployOk ds8 "server" (by decide)⟩

/-- The dependency edge list asserted by the claim's scenario sentence:
"graph coordinator → pulsar, coordinator → k8s_setup, worker → coordinator,
server → k8s_setup" (this follows the claim's words, for comparison with
the Tiltfile's declared edges). -/
def claimC3Edges : List (String × String) :=
  [("coordinator", "pulsar"), ("coordinator", "k8s_setup"),
   ("worker", "coordinator"), ("server", "k8s_setup")]

/-- C3 counterexample: the claim's enumeration of the declared graph is
wrong — the Tiltfile also declares "coordinator depends on server" (and
"pulsar depends on k8s_setup", "worker depends on k8s_setup"), so the
declared edge set differs from the claim's at the concrete edge
(coordinator, server). -/
theorem claimC3_graph_mismatch :
    ("coordinator", "server") ∈ chromaGraph.edges ∧
    ("coordinator", "server") ∉ claimC3Edges := by
  decide

/-- C3 (amended): in any reachable scheduler state, a node in `Error`
forces every transitive dependent to sit at `Pending`; leaving `Error` is
only possible through an explicit reset; and on the Tiltfile's actually
declared graph (which also contains coordinator → server, pulsar →
k8s_setup and worker → k8s_setup), a pulsar readiness failure leaves
coordinator and worker `Pending` while server can still reach `Ready`. -/
theorem error_isolation :
    (∀ g : Graph, WF g → ∀ s : SchedState, SchedReachable g s →
      ∀ b a : String, Relation.TransGen (Edge g.edges) b a →
      s a = RState.Error → s b = RState.Pending) ∧
    (∀ s : SchedState, SchedReachable chromaGraph s →
      s "pulsar" = RState.Error →
      s "coordinator" = RState.Pending ∧ s "worker" = RState.Pending) ∧
    (∃ s : SchedState, SchedReachable chromaGraph s ∧
      s "pulsar" = RState.Error ∧ s "server" = RState.Ready ∧
      s "coordinator" = RState.Pending ∧ s "worker" = RState.Pending) ∧
    (∀ (g : Graph) (s : SchedState) (e : SchedEvent) (s' : SchedState)
      (a : String), SchedStep g s e s' → s a = RState.Error →
      s' a ≠ RState.Error → ∃ x, e = SchedEvent.reset x) := by
  refine ⟨?_, ?_, ?_, ?_⟩
  · intro g hW s hr b a htg herr
    exact error_blocks hW (reachable_inv hW hr) b a htg
      (by rw [herr]; decide)
  · intro s hr herr
    have hInv := reachable_inv chromaGraph_wf hr
    have hne : s "pulsar" ≠ RState.Ready := by rw [herr]; decide
    constructor
    · exact error_blocks chromaGraph_wf hInv "coordinator" "pulsar"
        (Relation.TransGen.single
          (show ("coordinator", "pulsar") ∈ chromaGraph.edges by decide)) hne
    · exact error_blocks chromaGraph_wf hInv "worker" "pulsar"
        (Relation.TransGen.head
          (show ("worker", "coordinator") ∈ chromaGraph.edges by decide)
          (Relation.TransGen.single
            (show ("coordinator", "pulsar") ∈ chromaGraph.edges by decide)))
        hne
  · exact ⟨ds9, demo_reachable, by decide, by decide, by decide, by decide⟩
  · intro g s e s' a hstep herr hne
    cases hstep with
    | startBuild n hn hp hd =>
      by_cases han : a = n
      · rw [han, hp] at herr
        exact absurd herr (by decide)
      · exact absurd ((setState_other han).trans herr) hne
    | buildOk n h =>
      by_cases han : a = n
      · rw [han, h] at herr
        exact absurd herr (by decide)
      · exact absurd ((setState_other han).trans herr) hne
    | buildFail n h =>
      by_cases han : a = n
      · rw [han, h] at herr
        exact absurd herr (by decide)
      · exact absurd ((setState_other han).trans herr) hne
    | deployOk n h =>
      by_cases han : a = n
      · rw [han, h] at herr
        exact absurd herr (by decide)
      · exact absurd ((setState_other han).trans herr) hne
    | deployFail n h =>
      by_cases han : a = n
      · rw [han, h] at herr
        exact absurd herr (by decide)
      · exact absurd ((setState_other han).trans herr) hne
    | reset n hn => exact ⟨n, rfl⟩

/-- C3 witness: in the concrete execution where pulsar failed readiness,
the theorem forces coordinator and worker to remain `Pending`. -/
theorem error_isolation_witness :
    ds9 "coordinator" = RState.Pending ∧ ds9 "worker" = RState.Pending :=
  error_isolation.2.1 ds9 demo_reachable (by decide)

/-- C6: membership in `dependentsOf` is exactly transitive dependency on
the node; a reset sends the node and its dependent closure to `Pending`
and leaves every other node's state unchanged. -/
theorem reset_frame :
    (∀ (g : Graph) (a n : String), n ∈ dependentsOf g a ↔
      n ∈ g.nodes ∧ n ≠ a ∧ Relation.TransGen (Edge g.edges) n a) ∧
    (∀ (g : Graph) (s : SchedState) (a n : String),
      n = a ∨ n ∈ dependentsOf g a → resetNodes g s a n = RState.Pending) ∧
    (∀ (g : Graph) (s : SchedState) (a n : String),
      ¬ (n = a ∨ n ∈ dependentsOf g a) → resetNodes g s a n = s n) :=
  ⟨fun _ _ _ => mem_dependentsOf,
   fun _ _ _ _ h => resetNodes_pos h,
   fun _ _ _ _ h => resetNodes_neg h⟩

/-- C6 witness: resetting pulsar in the scenario end state sends its
dependent coordinator back to `Pending` but leaves server (outside the
closure of pulsar) exactly as it was, namely `Ready`. -/
theorem reset_frame_witness :
    resetNodes chromaGraph ds9 "pulsar" "coordinator" = RState.Pending ∧
    resetNodes chromaGraph ds9 "pulsar" "server" = ds9 "server" :=
  ⟨reset_frame.2.1 chromaGraph ds9 "pulsar" "coordinator" (by decide),
   reset_frame.2.2 chromaGraph ds9 "pulsar" "server" (by decide)⟩

/-- C7: a scheduler step can move a node into `Building` (equivalently,
out of `Pending`) only when every declared dependency is `Ready` in the
pre-state, and in every reachable scheduler state every node that has left
`Pending` has all its dependencies `Ready`. -/
theorem build_waits_for_deps :
    (∀ (g : Graph) (s : SchedState) (e : SchedEvent) (s' : SchedState)
      (n : String), SchedStep g s e s' → s' n = RState.Building →
      s n ≠ RState.Building → ∀ d ∈ depsOf g n, s d = RState.Ready) ∧
    (∀ (g : Graph) (s : SchedState) (e : SchedEvent) (s' : SchedState)
      (n : String), SchedStep g s e s' → s n = RState.Pending →
      s' n ≠ RState.Pending → ∀ d ∈ depsOf g n, s d = RState.Ready) ∧
    (∀ g : Graph, WF g → ∀ s : SchedState, SchedReachable g s →
      ∀ n ∈ g.nodes, s n ≠ RState.Pending →
      ∀ d ∈ depsOf g n, s d = RState.Ready) := by
  refine ⟨?_, ?_, ?_⟩
  · intro g s e s' n hstep hb hnb
    cases hstep with
    | startBuild m hn hp hd =>
      by_cases hm : n = m
      · exact hm ▸ hd
      · exact absurd ((setState_other hm).symm.trans hb) hnb
    | buildOk m h =>
      by_cases hm : n = m
      · rw [hm, setState_same] at hb
        exact absurd hb (by decide)
      · exact absurd ((setState_other hm).symm.trans hb) hnb
    | buildFail m h =>
      by_cases hm : n = m
      · rw [hm, setState_same] at hb
        exact absurd hb (by decide)
      · exact absurd ((setState_other hm).symm.trans hb) hnb
    | deployOk m h =>
      by_cases hm : n = m
      · rw [hm, setState_same] at hb
        exact absurd hb (by decide)
      · exact absurd ((setState_other hm).symm.trans hb) hnb
    | deployFail m h =>
      by_cases hm : n = m
      · rw [hm, setState_same] at hb
        exact absurd hb (by decide)
      · exact absurd ((setState_other hm).symm.trans hb) hnb
    | reset m hn =>
      by_cases hc : n = m ∨ n ∈ dependentsOf g m
      · rw [resetNodes_pos hc] at hb
        exact absurd hb (by decide)
      · exact absurd ((resetNodes_neg hc).symm.trans hb) hnb
  · intro g s e s' n hstep hpend hs'
    cases hstep with
    | startBuild m hn hp hd =>
      by_cases hm : n = m
      · exact hm ▸ hd
      · exact absurd ((setState_other hm).trans hpend) hs'
    | buildOk m h =>
      by_cases hm : n = m
      · rw [hm, h] at hpend
        exact absurd hpend (by decide)
      · exact absurd ((setState_other hm).trans hpend) hs'
    | buildFail m h =>
      by_cases hm : n = m
      · rw [hm, h] at hpend
        exact absurd hpend (by decide)
      · exact absurd ((setState_other hm).trans hpend) hs'
    | deployOk m h =>
      by_cases hm : n = m
      · rw [hm, h] at hpend
        exact absurd hpend (by decide)
      · exact absurd ((setState_other hm).trans hpend) hs'
    | deployFail m h =>
      by_cases hm : n = m
      · rw [hm, h] at hpend
        exact absurd hpend (by decide)
      · exact absurd ((setState_other hm).trans hpend) hs'
    | reset m hn =>
      by_cases hc : n = m ∨ n ∈ dependentsOf g m
      · exact absurd (resetNodes_pos hc) hs'
      · exact absurd ((resetNodes_neg hc).trans hpend) hs'
  · intro g hW s hr
    exact reachable_inv hW hr

/-- C7 witness: in the concrete execution, the step that moves pulsar into
`Building` finds its dependency k8s_setup already `Ready`. -/
theorem build_waits_for_deps_witness : ds3 "k8s_setup" = RState.Ready :=
  build_waits_for_deps.1 chromaGraph ds3 (SchedEvent.startBuild "pulsar") ds4
    "pulsar"
    (SchedStep.startBuild ds3 "pulsar" (by decide) (by decide) (by decide))
    (by decide) (by decide) "k8s_setup" (by decide)

/-! ## Build engine with content-addressed cache (§4.3)

Modelled from the spec: fingerprints are computed over (context content
digest, build instructions, entrypoint override); the hash is modelled as
the injective tuple of those inputs.  The external build collaborator is an
opaque function; `externalCalls` counts its invocations. -/

/-- A build fingerprint: context digest, instructions, entrypoint override. -/
abbrev Fingerprint := String × String × Option (List String)

/-- The output of a build engine run (§3 BuildArtifact): fingerprint,
opaque deployable handle, and the recorded start command. -/
structure BuildArtifact where
  fp : Fingerprint
  handle : String
  startCommand : List String
deriving DecidableEq, Repr

/-- The build engine's owned state: the fingerprint-keyed artifact cache
and the count of external build invocations. -/
structure BuildEngine where
  cache : List (Fingerprint × BuildArtifact)
  externalCalls : Nat
deriving DecidableEq, Repr

/-- The fingerprint of a build target given its context content digest. -/
def fingerprint (t : DockerBuildDecl) (contextDigest : String) : Fingerprint :=
  (contextDigest, t.dockerfile, t.entrypoint)

/-- Cache lookup by fingerprint. -/
def lookupFp : List (Fingerprint × BuildArtifact) → Fingerprint →
    Option BuildArtifact
  | [], _ => none
  | (k, a) :: rest, fp => if k = fp then some a else lookupFp rest fp

/-- Modelled from the spec: `build(target)` (§4.3).  On a cache hit the
cached artifact is returned with no external invocation; on a miss the
external collaborator `ext` is invoked, the artifact records the entrypoint
override as its start command (falling back to the image default `dc`),
and the result is stored keyed by fingerprint. -/
def build (ext : String → String → String) (dc : String → List String)
    (contextDigest : String) (e : BuildEngine) (t : DockerBuildDecl) :
    BuildArtifact × BuildEngine :=
  match lookupFp e.cache (fingerprint t contextDigest) with
  | some a => (a, e)
  | none =>
    let a : BuildArtifact :=
      { fp := fingerprint t contextDigest,
        handle := ext t.context t.dockerfile,
        startCommand := t.entrypoint.getD (dc t.name) }
    (a, { cache := (fingerprint t contextDigest, a) :: e.cache,
          externalCalls := e.externalCalls + 1 })

theorem build_of_hit {ext : String → String → String}
    {dc : String → List String} {d : String} {e : BuildEngine}
    {t : DockerBuildDecl} {a : BuildArtifact}
    (h : lookupFp e.cache (fingerprint t d) = some a) :
    build ext dc d e t = (a, e) := by
  unfold build
  rw [h]

theorem lookup_build_cache (ext : String → String → String)
    (dc : String → List String) (d : String) (e : BuildEngine)
    (t : DockerBuildDecl) :
    lookupFp (build ext dc d e t).2.cache (fingerprint t d) =
      some (build ext dc d e t).1 := by
  unfold build
  cases h : lookupFp e.cache (fingerprint t d) with
  | some a => simpa using h
  | none => simp [lookupFp]

/-- C4: with unchanged inputs (same target, same context digest), building
twice returns the same artifact (same fingerprint) and the second call
changes nothing — in particular it performs no external build invocation. -/
theorem build_idempotent_cache_hit :
    ∀ (ext : String → String → String) (dc : String → List String)
      (d : String) (e : BuildEngine) (t : DockerBuildDecl),
      (build ext dc d (build ext dc d e t).2 t).1 = (build ext dc d e t).1 ∧
      (build ext dc d (build ext dc d e t).2 t).1.fp =
        (build ext dc d e t).1.fp ∧
      (build ext dc d (build ext dc d e t).2 t).2 = (build ext dc d e t).2 ∧
      (build ext dc d (build ext dc d e t).2 t).2.externalCalls =
        (build ext dc d e t).2.externalCalls := by
  intro ext dc d e t
  have key : build ext dc d (build ext dc d e t).2 t =
      ((build ext dc d e t).1, (build ext dc d e t).2) :=
    build_of_hit (lookup_build_cache ext dc d e t)
  rw [key]
  exact ⟨rfl, rfl, rfl, rfl⟩

/-- C8: a build target declaring an entrypoint override produces (on an
actual build) an artifact whose recorded start command is the override,
regardless of the image's default start command. -/
theorem entrypoint_override_recorded :
    ∀ (ext : String → String → String) (dc : String → List String)
      (d : String) (e : BuildEngine) (t : DockerBuildDecl) (cmd : List String),
      t.entrypoint = some cmd →
      lookupFp e.cache (fingerprint t d) = none →
      (build ext dc d e t).1.startCommand = cmd := by
  intro ext dc d e t cmd hcmd hmiss
  unfold build
  rw [hmiss]
  simp [hcmd]

/-- A build engine with an empty cache (session start). -/
def emptyEngine : BuildEngine := { cache := [], externalCalls := 0 }

/-- C8 witness: the Tiltfile's chroma-coordinator target declares the dlv
debug-proxy override, and building it records exactly that command as the
artifact's start command (not the image default). -/
theorem entrypoint_override_recorded_witness :
    chromaCoordinatorBuild.entrypoint = some dlvCommand ∧
    (build (fun _ _ => "img") (fun _ => ["bin/chroma"]) "digest0" emptyEngine
      chromaCoordinatorBuild).1.startCommand = dlvCommand :=
  ⟨rfl, entrypoint_override_recorded (fun _ _ => "img")
    (fun _ => ["bin/chroma"]) "digest0" emptyEngine chromaCoordinatorBuild
    dlvCommand rfl rfl⟩

/-- C10: among the three Tiltfile build targets only chroma-coordinator
declares an entrypoint override — server and worker declare none — and a
target without an override produces (on an actual build) an artifact whose
recorded start command is the image's default. -/
theorem no_override_keeps_default :
    serverBuild.entrypoint = none ∧ workerBuild.entrypoint = none ∧
    tiltfileBuilds.filter (fun t => t.entrypoint.isSome) =
      [chromaCoordinatorBuild] ∧
    (∀ (ext : String → String → String) (dc : String → List String)
      (d : String) (e : BuildEngine) (t : DockerBuildDecl),
      t.entrypoint = none →
      lookupFp e.cache (fingerprint t d) = none →
      (build ext dc d e t).1.startCommand = dc t.name) := by
  refine ⟨rfl, rfl, by decide, ?_⟩
  intro ext dc d e t hnone hmiss
  unfold build
  rw [hmiss]
  simp [hnone]

/-- C10 witness: building the Tiltfile's server target (no override)
records the image's default start command unchanged. -/
theorem no_override_keeps_default_witness :
    serverBuild.entrypoint = none ∧
    (build (fun _ _ => "img") (fun _ => ["srv-default"]) "digest0" emptyEngine
      serverBuild).1.startCommand = ["srv-default"] :=
  ⟨rfl, no_override_keeps_default.2.2.2 (fun _ _ => "img")
    (fun _ => ["srv-default"]) "digest0" emptyEngine serverBuild rfl rfl⟩

/-! ## In-flight build deduplication (§4.3, §5)

Modelled from the spec: concurrent build requests are modelled as an
arbitrary interleaving of `request` events (a caller asks for a
fingerprint) and `complete` events (the single in-flight build for a
fingerprint finishes).  A request hits the cache, joins the waiters of an
in-flight build, or starts the one external build; completion publishes the
artifact handle to the cache and to every waiter. -/

/-- An event of the deduplicating build front end. -/
inductive DedupEvent
  | request (fp : String)
  | complete (fp : String) (handle : String)
deriving DecidableEq, Repr

/-- State of the deduplicating build front end: artifact cache, in-flight
fingerprints, waiting requesters, the log of external build invocations
started, and the results delivered to requesters. -/
structure DedupState where
  cache : List (String × String)
  inflight : List String
  waiting : List String
  started : List String
  delivered : List (String × String)
deriving DecidableEq, Repr

/-- Lookup of an artifact handle by fingerprint. -/
def lookupS : List (String × String) → String → Option String
  | [], _ => none
  | (k, v) :: rest, fp => if k = fp then some v else lookupS rest fp

/-- Modelled from the spec: one step of the deduplicating front end. -/
def dedupStep (s : DedupState) : DedupEvent → Option DedupState
  | DedupEvent.request fp =>
    match lookupS s.cache fp with
    | some h => some { s with delivered := (fp, h) :: s.delivered }
    | none =>
      if fp ∈ s.inflight then some { s with waiting := fp :: s.waiting }
      else some { s with inflight := fp :: s.inflight,
                         started := fp :: s.started }
  | DedupEvent.complete fp h =>
    if fp ∈ s.inflight then
      some { s with
        cache := (fp, h) :: s.cache,
        inflight := s.inflight.erase fp,
        waiting := s.waiting.filter (fun x => decide (x ≠ fp)),
        delivered := (s.waiting.filter (fun x => decide (x = fp))).map
            (fun _ => (fp, h)) ++ (fp, h) :: s.delivered }
    else none

/-- Run of the front end over an event trace. -/
def dedupRun : DedupState → List DedupEvent → Option DedupState
  | s, [] => some s
  | s, e :: es => (dedupStep s e).bind (fun s1 => dedupRun s1 es)

/-- Session-start state: empty cache, nothing in flight. -/
def dedupInit : DedupState :=
  { cache := [], inflight := [], waiting := [], started := [],
    delivered := [] }

/-- The fingerprint is cached or in flight. -/
def FpFlag (fp : String) (s : DedupState) : Prop :=
  (lookupS s.cache fp).isSome = true ∨ fp ∈ s.inflight

/-- Per-fingerprint invariant of the front end: the number of external
build invocations started equals one exactly when the fingerprint is
cached or in flight (else zero); at most one in-flight entry; the cache is
single-valued on the fingerprint; in-flight excludes cached; every
delivered result is cached. -/
def FpInv (fp : String) (s : DedupState) : Prop :=
  (s.started.count fp =
    if (lookupS s.cache fp).isSome = true ∨ fp ∈ s.inflight then 1 else 0) ∧
  s.inflight.count fp ≤ 1 ∧
  (∀ h h', (fp, h) ∈ s.cache → (fp, h') ∈ s.cache → h = h') ∧
  (fp ∈ s.inflight → ∀ h, (fp, h) ∉ s.cache) ∧
  (∀ h, (fp, h) ∈ s.delivered → (fp, h) ∈ s.cache)


theorem lookupS_eq_none_iff {c : List (String × String)} {fp : String} :
    lookupS c fp = none ↔ ∀ h, (fp, h) ∉ c := by
  induction c with
  | nil => simp [lookupS]
  | cons p rest ih =>
    obtain ⟨k, v⟩ := p
    by_cases hk : k = fp
    · subst hk
      constructor
      · intro hnone
        rw [lookupS, if_pos rfl] at hnone
        exact absurd hnone (by simp)
      · intro hall
        exact absurd (List.mem_cons_self (k, v) rest) (hall v)
    · rw [lookupS, if_neg hk, ih]
      constructor
      · intro hr h hc
        rcases List.mem_cons.mp hc with hc | hc
        · injection hc with hc1 hc2
          exact hk hc1.symm
        · exact hr h hc
      · intro hr h hc
        exact hr h (List.mem_cons_of_mem _ hc)

theorem lookupS_some_mem {c : List (String × String)} {fp v : String}
    (h : lookupS c fp = some v) : (fp, v) ∈ c := by
  induction c with
  | nil => simp [lookupS] at h
  | cons p rest ih =>
    obtain ⟨k, w⟩ := p
    by_cases hk : k = fp
    · subst hk
      rw [lookupS, if_pos rfl] at h
      injection h with h
      rw [← h]
      exact List.mem_cons_self _ _
    · rw [lookupS, if_neg hk] at h
      exact List.mem_cons_of_mem _ (ih h)

theorem lookupS_cons_ne {c : List (String × String)} {k v fp : String}
    (h : k ≠ fp) : lookupS ((k, v) :: c) fp = lookupS c fp := by
  rw [lookupS, if_neg h]

theorem dedupStep_inv {fp : String} {s s' : DedupState} {e : DedupEvent}
    (hstep : dedupStep s e = some s') (hInv : FpInv fp s) : FpInv fp s' := by
  obtain ⟨h1, h2, h3, h4, h5⟩ := hInv
  cases e with
  | request fq =>
    rw [dedupStep] at hstep
    cases hl : lookupS s.cache fq with
    | some h =>
      rw [hl] at hstep
      injection hstep with hstep
      subst hstep
      refine ⟨h1, h2, h3, h4, ?_⟩
      intro hh hmem
      rcases List.mem_cons.mp hmem with hc | hc
      · injection hc with hc1 hc2
        rw [hc1, hc2]
        exact lookupS_some_mem hl
      · exact h5 hh hc
    | none =>
      rw [hl] at hstep
      by_cases hin : fq ∈ s.inflight
      · rw [if_pos hin] at hstep
        injection hstep with hstep
        subst hstep
        exact ⟨h1, h2, h3, h4, h5⟩
      · rw [if_neg hin] at hstep
        injection hstep with hstep
        subst hstep
        by_cases hfq : fp = fq
        · subst hfq
          have hflagold :
              ¬ ((lookupS s.cache fp).isSome = true ∨ fp ∈ s.inflight) := by
            rw [hl]
            simp [hin]
          refine ⟨?_, ?_, h3, ?_, h5⟩
          · show (fp :: s.started).count fp =
              if (lookupS s.cache fp).isSome = true ∨ fp ∈ fp :: s.inflight
              then 1 else 0
            rw [if_neg hflagold] at h1
            rw [List.count_cons_self, h1,
              if_pos (Or.inr (List.mem_cons_self fp s.inflight))]
          · show (fp :: s.inflight).count fp ≤ 1
            have hz : s.inflight.count fp = 0 := List.count_eq_zero.mpr hin
            rw [List.count_cons_self, hz]
          · intro hmem hh
            exact (lookupS_eq_none_iff.mp hl) hh
        · refine ⟨?_, ?_, h3, ?_, h5⟩
          · show (fq :: s.started).count fp =
              if (lookupS s.cache fp).isSome = true ∨ fp ∈ fq :: s.inflight
              then 1 else 0
            rw [List.count_cons_of_ne hfq]
            simp only [List.mem_cons, hfq, false_or]
            exact h1
          · show (fq :: s.inflight).count fp ≤ 1
            rw [List.count_cons_of_ne hfq]
            exact h2
          · intro hmem
            refine h4 ?_
            rcases List.mem_cons.mp hmem with hc | hc
            · exact absurd hc hfq
            · exact hc
  | complete fq h =>
    rw [dedupStep] at hstep
    by_cases hin : fq ∈ s.inflight
    · rw [if_pos hin] at hstep
      injection hstep with hstep
      subst hstep
      by_cases hfq : fp = fq
      · subst hfq
        have hone : s.inflight.count fp = 1 :=
          Nat.le_antisymm h2 (List.count_pos_iff.mpr hin)
        have hnotin : fp ∉ s.inflight.erase fp := by
          rw [← List.count_eq_zero, List.count_erase_self, hone]
        have hcachemem : ∀ hh, (fp, hh) ∈ (fp, h) :: s.cache → hh = h := by
          intro hh hmem
          rcases List.mem_cons.mp hmem with hc | hc
          · exact (Prod.ext_iff.mp hc).2
          · exact absurd hc (h4 hin hh)
        refine ⟨?_, ?_, ?_, ?_, ?_⟩
        · show s.started.count fp =
            if (lookupS ((fp, h) :: s.cache) fp).isSome = true ∨
              fp ∈ s.inflight.erase fp then 1 else 0
          have hlk : (lookupS ((fp, h) :: s.cache) fp).isSome = true := by
            rw [lookupS, if_pos rfl]
            rfl
          rw [if_pos (Or.inr hin)] at h1
          rw [h1, if_pos (Or.inl hlk)]
        · show (s.inflight.erase fp).count fp ≤ 1
          calc (s.inflight.erase fp).count fp
              ≤ s.inflight.count fp := (s.inflight.erase_sublist fp).count_le fp
            _ ≤ 1 := h2
        · intro ha hb hma hmb
          rw [hcachemem ha hma, hcachemem hb hmb]
        · intro hmem
          exact absurd hmem hnotin
        · intro hh hmem
          rcases List.mem_append.mp hmem with hc | hc
          · rcases List.mem_map.mp hc with ⟨x, hx, hxe⟩
            rw [← hxe]
            exact List.mem_cons_self _ _
          · rcases List.mem_cons.mp hc with hc | hc
            · rw [hc]
              exact List.mem_cons_self _ _
            · exact List.mem_cons_of_mem _ (h5 hh hc)
      · have hlk : lookupS ((fq, h) :: s.cache) fp = lookupS s.cache fp :=
          lookupS_cons_ne (fun hc => hfq hc.symm)
        have hmemiff : (fp ∈ s.inflight.erase fq) = (fp ∈ s.inflight) := by
          rw [List.mem_erase_of_ne hfq]
        have hcachetl : ∀ hh, (fp, hh) ∈ (fq, h) :: s.cache →
            (fp, hh) ∈ s.cache := by
          intro hh hmem
          rcases List.mem_cons.mp hmem with hc | hc
          · injection hc with hc1 hc2
            exact absurd hc1 hfq
          · exact hc
        refine ⟨?_, ?_, ?_, ?_, ?_⟩
        · show s.started.count fp =
            if (lookupS ((fq, h) :: s.cache) fp).isSome = true ∨
              fp ∈ s.inflight.erase fq then 1 else 0
          simp only [hlk, hmemiff]
          exact h1
        · show (s.inflight.erase fq).count fp ≤ 1
          rw [List.count_erase_of_ne hfq]
          exact h2
        · intro ha hb hma hmb
          exact h3 ha hb (hcachetl ha hma) (hcachetl hb hmb)
        · intro hmem hh hc
          exact h4 (hmemiff ▸ hmem) hh (hcachetl hh hc)
        · intro hh hmem
          rcases List.mem_append.mp hmem with hc | hc
          · rcases List.mem_map.mp hc with ⟨x, hx, hxe⟩
            injection hxe with hx1 hx2
            exact absurd hx1.symm hfq
          · rcases List.mem_cons.mp hc with hc | hc
            · injection hc with hc1 hc2
              exact absurd hc1 hfq
            · exact List.mem_cons_of_mem _ (h5 hh hc)
    · rw [if_neg hin] at hstep
      exact absurd hstep (by simp)

theorem dedupStep_flag {fp : String} {s s' : DedupState} {e : DedupEvent}
    (hstep : dedupStep s e = some s') (hf : FpFlag fp s) : FpFlag fp s' := by
  cases e with
  | request fq =>
    rw [dedupStep] at hstep
    cases hl : lookupS s.cache fq with
    | some h =>
      rw [hl] at hstep
      injection hstep with hstep
      subst hstep
      exact hf
    | none =>
      rw [hl] at hstep
      by_cases hin : fq ∈ s.inflight
      · rw [if_pos hin] at hstep
        injection hstep with hstep
        subst hstep
        exact hf
      · rw [if_neg hin] at hstep
        injection hstep with hstep
        subst hstep
        rcases hf with hf | hf
        · exact Or.inl hf
        · exact Or.inr (List.mem_cons_of_mem _ hf)
  | complete fq h =>
    rw [dedupStep] at hstep
    by_cases hin : fq ∈ s.inflight
    · rw [if_pos hin] at hstep
      injection hstep with hstep
      subst hstep
      by_cases hfq : fp = fq
      · subst hfq
        refine Or.inl ?_
        show (lookupS ((fp, h) :: s.cache) fp).isSome = true
        rw [lookupS, if_pos rfl]
        rfl
      · rcases hf with hf | hf
        · refine Or.inl ?_
          show (lookupS ((fq, h) :: s.cache) fp).isSome = true
          rwa [lookupS_cons_ne (fun hc => hfq hc.symm)]
        · exact Or.inr ((List.mem_erase_of_ne hfq).mpr hf)
    · rw [if_neg hin] at hstep
      exact absurd hstep (by simp)

theorem dedupStep_request_flag {fp : String} {s s' : DedupState}
    (hstep : dedupStep s (DedupEvent.request fp) = some s') : FpFlag fp s' := by
  rw [dedupStep] at hstep
  cases hl : lookupS s.cache fp with
  | some h =>
    rw [hl] at hstep
    injection hstep with hstep
    subst hstep
    refine Or.inl ?_
    show (lookupS s.cache fp).isSome = true
    rw [hl]
    rfl
  | none =>
    rw [hl] at hstep
    by_cases hin : fp ∈ s.inflight
    · rw [if_pos hin] at hstep
      injection hstep with hstep
      subst hstep
      exact Or.inr hin
    · rw [if_neg hin] at hstep
      injection hstep with hstep
      subst hstep
      exact Or.inr (List.mem_cons_self _ _)

theorem dedupRun_inv {fp : String} :
    ∀ (es : List DedupEvent) (s s' : DedupState),
      dedupRun s es = some s' → FpInv fp s →
      FpInv fp s' ∧ (FpFlag fp s → FpFlag fp s') ∧
      (DedupEvent.request fp ∈ es → FpFlag fp s') := by
  intro es
  induction es with
  | nil =>
    intro s s' hrun hInv
    rw [dedupRun] at hrun
    injection hrun with hrun
    subst hrun
    exact ⟨hInv, fun h => h, fun h => absurd h (List.not_mem_nil _)⟩
  | cons e es ih =>
    intro s s' hrun hInv
    rw [dedupRun] at hrun
    cases h1 : dedupStep s e with
    | none =>
      rw [h1] at hrun
      exact absurd hrun (by simp)
    | some s1 =>
      rw [h1, Option.some_bind] at hrun
      obtain ⟨hi, hm, hr⟩ := ih s1 s' hrun (dedupStep_inv h1 hInv)
      refine ⟨hi, fun hf => hm (dedupStep_flag h1 hf), ?_⟩
      intro hmem
      rcases List.mem_cons.mp hmem with hc | hc
      · rw [← hc] at h1
        exact hm (dedupStep_request_flag h1)
      · exact hr hc

/-- C5: starting from the session-start state, any interleaved event trace
that contains at least one request for a fingerprint performs exactly one
external build invocation for that fingerprint, and every result delivered
to any requester of that fingerprint is the same single artifact handle. -/
theorem single_build_per_fingerprint :
    ∀ (es : List DedupEvent) (s' : DedupState),
      dedupRun dedupInit es = some s' → ∀ fp : String,
      DedupEvent.request fp ∈ es →
      s'.started.count fp = 1 ∧
      (∀ h h', (fp, h) ∈ s'.delivered → (fp, h') ∈ s'.delivered → h = h') := by
  intro es s' hrun fp hmem
  have hInv0 : FpInv fp dedupInit := by
    refine ⟨by simp [dedupInit, lookupS], by simp [dedupInit], ?_, ?_, ?_⟩
    · intro ha hb hma
      exact absurd hma (List.not_mem_nil _)
    · intro h ha hc
      exact absurd hc (List.not_mem_nil _)
    · intro hh hc
      exact absurd hc (List.not_mem_nil _)
  obtain ⟨⟨h1, h2, h3, h4, h5⟩, hm, hflag⟩ :=
    dedupRun_inv es dedupInit s' hrun hInv0
  have hf : (lookupS s'.cache fp).isSome = true ∨ fp ∈ s'.inflight :=
    hflag hmem
  refine ⟨?_, ?_⟩
  · rw [h1, if_pos hf]
  · intro ha hb hma hmb
    exact h3 ha hb (h5 ha hma) (h5 hb hmb)

/-- End state of a concrete two-requester trace: the second request joined
the first one's in-flight build, one external invocation was started, and
both requesters were delivered the same handle. -/
def dedupDemoFinal : DedupState :=
  { cache := [("f", "h0")], inflight := [], waiting := [],
    started := ["f"], delivered := [("f", "h0"), ("f", "h0")] }

/-- C5 witness: for two concurrent requests of fingerprint "f" followed by
the build's completion, the started-invocation log counts exactly one
external build for "f". -/
theorem single_build_per_fingerprint_witness :
    dedupDemoFinal.started.count "f" = 1 :=
  (single_build_per_fingerprint
    [DedupEvent.request "f", DedupEvent.request "f",
     DedupEvent.complete "f" "h0"] dedupDemoFinal (by decide) "f"
    (by decide)).1

/-! ## Port/tunnel manager (§4.6)

Modelled from the spec: once a node reaches `Ready` its declared forwards
are established, after tearing down any listeners the node still owned; a
node cycling through `Pending` (redeploy) tears its forwards down.  The
state is the list of active listeners (owner, local port, remote port). -/

/-- The `port_forwards` declared by the Tiltfile for a resource name,
derived from the `k8s_resource` declarations. -/
def tiltfilePortForwards (n : String) : List (Nat × Nat) :=
  ((tiltfileResources.find? (fun r => decide (r.name = n))).map
    (fun r => r.port_forwards)).getD []

/-- Active local listeners: (owning node, local port, remote port). -/
structure PMState where
  active : List (String × Nat × Nat)
deriving DecidableEq, Repr

/-- Port-manager events: a node reached `Ready`, or cycled back through
`Pending` (reset/redeploy). -/
inductive PMEvent
  | ready (n : String)
  | reset (n : String)
deriving DecidableEq, Repr

/-- Modelled from the spec: one port-manager transition — on `ready` the
node's old listeners are closed first and the declared forwards opened; on
`reset` the node's listeners are closed. -/
def pmApply (pf : String → List (Nat × Nat)) (s : PMState) :
    PMEvent → PMState
  | PMEvent.ready n =>
    ⟨((pf n).map (fun pr => (n, pr))) ++
      s.active.filter (fun q => decide (q.1 ≠ n))⟩
  | PMEvent.reset n => ⟨s.active.filter (fun q => decide (q.1 ≠ n))⟩

/-- Run of the port manager over an event trace. -/
def pmRun (pf : String → List (Nat × Nat)) : PMState → List PMEvent → PMState
  | s, [] => s
  | s, e :: es => pmRun pf (pmApply pf s e) es

/-- The port manager's initial state: no listeners. -/
def pmInit : PMState := ⟨[]⟩

/-- Number of simultaneous listeners a node owns on a given local port. -/
def listenerCount (s : PMState) (n : String) (p : Nat) : Nat :=
  s.active.countP (fun q => decide (q.1 = n ∧ q.2.1 = p))

theorem countP_pair_le_one {m : String} {p : Nat} :
    ∀ l : List (Nat × Nat), (l.map Prod.fst).Nodup →
      (l.map (fun pr => (m, pr))).countP
        (fun q => decide (q.1 = m ∧ q.2.1 = p)) ≤ 1 := by
  intro l
  induction l with
  | nil =>
    intro hnd
    simp
  | cons a t ih =>
    intro hnd
    rw [List.map_cons] at hnd
    have hnm : a.1 ∉ t.map Prod.fst := (List.nodup_cons.mp hnd).1
    have hnd' : (t.map Prod.fst).Nodup := (List.nodup_cons.mp hnd).2
    rw [List.map_cons, List.countP_cons]
    by_cases hap : a.1 = p
    · have hz : (t.map (fun pr => (m, pr))).countP
          (fun q => decide (q.1 = m ∧ q.2.1 = p)) = 0 := by
        rw [List.countP_eq_zero]
        intro q hq
        rcases List.mem_map.mp hq with ⟨pr, hpr, hpre⟩
        rw [← hpre]
        simp only [decide_eq_true_eq, not_and]
        intro hm1 hc
        exact hnm (hap ▸ hc ▸ List.mem_map_of_mem Prod.fst hpr)
      rw [hz]
      split <;> omega
    · have hfalse : (decide ((m, a).1 = m ∧ (m, a).2.1 = p)) = false := by
        simp [hap]
      rw [hfalse]
      have h0 : (if (false = true) then 1 else 0) = 0 := rfl
      rw [h0]
      have := ih hnd'
      omega

theorem pmApply_count {pf : String → List (Nat × Nat)}
    (hwf : ∀ m, ((pf m).map Prod.fst).Nodup) {s : PMState} {ev : PMEvent}
    {n : String} {p : Nat} (h : listenerCount s n p ≤ 1) :
    listenerCount (pmApply pf s ev) n p ≤ 1 := by
  have hfiltz : ∀ m : String, n = m →
      (s.active.filter (fun q => decide (q.1 ≠ m))).countP
        (fun q => decide (q.1 = n ∧ q.2.1 = p)) = 0 := by
    intro m hm
    rw [List.countP_eq_zero]
    intro q hq
    have hqne := of_decide_eq_true (List.mem_filter.mp hq).2
    simp only [decide_eq_true_eq, not_and]
    intro hc
    exact absurd (hc.trans hm) hqne
  have hfiltle : ∀ m : String,
      (s.active.filter (fun q => decide (q.1 ≠ m))).countP
        (fun q => decide (q.1 = n ∧ q.2.1 = p)) ≤ listenerCount s n p :=
    fun m => (List.filter_sublist s.active).countP_le _
  cases ev with
  | ready m =>
    show ((pf m).map (fun pr => (m, pr)) ++
      s.active.filter (fun q => decide (q.1 ≠ m))).countP
        (fun q => decide (q.1 = n ∧ q.2.1 = p)) ≤ 1
    rw [List.countP_append]
    by_cases hnm : n = m
    · subst hnm
      rw [hfiltz n rfl]
      have := countP_pair_le_one (m := n) (p := p) (pf n) (hwf n)
      omega
    · have hz : ((pf m).map (fun pr => (m, pr))).countP
          (fun q => decide (q.1 = n ∧ q.2.1 = p)) = 0 := by
        rw [List.countP_eq_zero]
        intro q hq
        rcases List.mem_map.mp hq with ⟨pr, hpr, hpre⟩
        rw [← hpre]
        simp only [decide_eq_true_eq, not_and]
        intro hc
        exact absurd hc.symm hnm
      have := hfiltle m
      omega
  | reset m =>
    show (s.active.filter (fun q => decide (q.1 ≠ m))).countP
        (fun q => decide (q.1 = n ∧ q.2.1 = p)) ≤ 1
    exact le_trans (hfiltle m) h

/-- C9: for any per-node forward declaration without duplicate local ports
(as in the Tiltfile), after any sequence of ready/reset (redeploy) events a
node never owns two simultaneous listeners on the same local port: old
listeners are torn down before new ones are established. -/
theorem no_duplicate_listeners :
    ∀ pf : String → List (Nat × Nat), (∀ m, ((pf m).map Prod.fst).Nodup) →
      ∀ (evs : List PMEvent) (n : String) (p : Nat),
        listenerCount (pmRun pf pmInit evs) n p ≤ 1 := by
  intro pf hwf evs
  suffices h : ∀ (evs : List PMEvent) (s : PMState),
      (∀ n p, listenerCount s n p ≤ 1) →
      ∀ n p, listenerCount (pmRun pf s evs) n p ≤ 1 by
    refine h evs pmInit ?_
    intro n p
    show ([] : List (String × Nat × Nat)).countP _ ≤ 1
    simp
  intro evs
  induction evs with
  | nil =>
    intro s hs n p
    exact hs n p
  | cons e es ih =>
    intro s hs n p
    exact ih (pmApply pf s e) (fun n p => pmApply_count hwf (hs n p)) n p

/-- The Tiltfile's declared forwards have no duplicate local port for any
resource (server: 8000, coordinator: 40000). -/
theorem tiltfilePF_wf :
    ∀ m, ((tiltfilePortForwards m).map Prod.fst).Nodup := by
  have hall : ∀ r ∈ tiltfileResources, (r.port_forwards.map Prod.fst).Nodup :=
    by decide
  intro m
  cases hf : tiltfileResources.find? (fun r => decide (r.name = m)) with
  | none => simp [tiltfilePortForwards, hf]
  | some r =>
    have hr : r ∈ tiltfileResources := List.mem_of_find?_eq_some hf
    simpa [tiltfilePortForwards, hf] using hall r hr

/-- C9 witness: redeploying the server (ready, reset on redeploy, ready
again) leaves at most one listener on its declared local port 8000. -/
theorem no_duplicate_listeners_witness :
    listenerCount
      (pmRun tiltfilePortForwards pmInit
        [PMEvent.ready "server", PMEvent.reset "server",
         PMEvent.ready "server"]) "server" 8000 ≤ 1 :=
  no_duplicate_listeners tiltfilePortForwards tiltfilePF_wf
    [PMEvent.ready "server", PMEvent.reset "server", PMEvent.ready "server"]
    "server" 8000
